import Mathlib

/-!
Verification development for the terminal stock-watchlist dashboard
(`stock.py`, class `StockMonitor`).

Modelling conventions:
* Python strings are sequences of code points, modelled as `List Char`.
* Monetary values (`float(...)` results) are modelled as exact rationals `ℚ`;
  the arithmetic the program performs on them (subtraction, division,
  comparison, sorting) is exact on the inputs of interest.
* Python exceptions that can escape a boundary are modelled with `Except`:
  `sorted(..., key=...)` raises `TypeError` when the key function subscripts
  `None`, and `ZeroDivisionError` when it divides by a zero previous close.
* `unicodedata.east_asian_width(c) in ('F', 'W')` is modelled by the
  executable predicate `eastAsianFW`, an encoding of the Fullwidth/Wide
  ranges of the Unicode East-Asian-width table.
-/

/-- Unicode East-Asian-width classes Fullwidth (F) and Wide (W), as inclusive
code-point ranges.  Encodes the `F` and `W` entries of `EastAsianWidth.txt`;
this is the table `unicodedata.east_asian_width` consults in
`get_display_width` (stock.py lines 106-118). -/
def wideRanges : List (Nat × Nat) :=
  [(0x1100, 0x115F), (0x231A, 0x231B), (0x2329, 0x232A), (0x23E9, 0x23EC),
   (0x23F0, 0x23F0), (0x23F3, 0x23F3), (0x25FD, 0x25FE), (0x2614, 0x2615),
   (0x2648, 0x2653), (0x267F, 0x267F), (0x2693, 0x2693), (0x26A1, 0x26A1),
   (0x26AA, 0x26AB), (0x26BD, 0x26BE), (0x26C4, 0x26C5), (0x26CE, 0x26CE),
   (0x26D4, 0x26D4), (0x26EA, 0x26EA), (0x26F2, 0x26F3), (0x26F5, 0x26F5),
   (0x26FA, 0x26FA), (0x26FD, 0x26FD), (0x2705, 0x2705), (0x270A, 0x270B),
   (0x2728, 0x2728), (0x274C, 0x274C), (0x274E, 0x274E), (0x2753, 0x2755),
   (0x2757, 0x2757), (0x2795, 0x2797), (0x27B0, 0x27B0), (0x27BF, 0x27BF),
   (0x2B1B, 0x2B1C), (0x2B50, 0x2B50), (0x2B55, 0x2B55), (0x2E80, 0x2E99),
   (0x2E9B, 0x2EF3), (0x2F00, 0x2FD5), (0x2FF0, 0x2FFB), (0x3000, 0x303E),
   (0x3041, 0x3096), (0x3099, 0x30FF), (0x3105, 0x312F), (0x3131, 0x318E),
   (0x3190, 0x31E3), (0x31F0, 0x321E), (0x3220, 0x3247), (0x3250, 0x4DBF),
   (0x4E00, 0xA48C), (0xA490, 0xA4C6), (0xA960, 0xA97C), (0xAC00, 0xD7A3),
   (0xF900, 0xFAFF), (0xFE10, 0xFE19), (0xFE30, 0xFE52), (0xFE54, 0xFE66),
   (0xFE68, 0xFE6B), (0xFF01, 0xFF60), (0xFFE0, 0xFFE6),
   (0x16FE0, 0x16FE4), (0x16FF0, 0x16FF1), (0x17000, 0x187F7),
   (0x18800, 0x18CD5), (0x18D00, 0x18D08), (0x1AFF0, 0x1AFF3),
   (0x1AFF5, 0x1AFFB), (0x1AFFD, 0x1AFFE), (0x1B000, 0x1B122),
   (0x1B150, 0x1B152), (0x1B164, 0x1B167), (0x1B170, 0x1B2FB),
   (0x1F004, 0x1F004), (0x1F0CF, 0x1F0CF), (0x1F18E, 0x1F18E),
   (0x1F191, 0x1F19A), (0x1F200, 0x1F202), (0x1F210, 0x1F23B),
   (0x1F240, 0x1F248), (0x1F250, 0x1F251), (0x1F260, 0x1F265),
   (0x1F300, 0x1F320), (0x1F32D, 0x1F335), (0x1F337, 0x1F37C),
   (0x1F37E, 0x1F393), (0x1F3A0, 0x1F3CA), (0x1F3CF, 0x1F3D3),
   (0x1F3E0, 0x1F3F0), (0x1F3F4, 0x1F3F4), (0x1F3F8, 0x1F43E),
   (0x1F440, 0x1F440), (0x1F442, 0x1F4FC), (0x1F4FF, 0x1F53D),
   (0x1F54B, 0x1F54E), (0x1F550, 0x1F567), (0x1F57A, 0x1F57A),
   (0x1F595, 0x1F596), (0x1F5A4, 0x1F5A4), (0x1F5FB, 0x1F64F),
   (0x1F680, 0x1F6C5), (0x1F6CC, 0x1F6CC), (0x1F6D0, 0x1F6D2),
   (0x1F6D5, 0x1F6D7), (0x1F6DC, 0x1F6DF), (0x1F6EB, 0x1F6EC),
   (0x1F6F4, 0x1F6FC), (0x1F7E0, 0x1F7EB), (0x1F7F0, 0x1F7F0),
   (0x1F90C, 0x1F93A), (0x1F93C, 0x1F945), (0x1F947, 0x1F9FF),
   (0x1FA70, 0x1FA7C), (0x1FA80, 0x1FA88), (0x1FA90, 0x1FABD),
   (0x1FABF, 0x1FAC5), (0x1FACE, 0x1FADB), (0x1FAE0, 0x1FAE8),
   (0x1FAF0, 0x1FAF8), (0x20000, 0x2FFFD), (0x30000, 0x3FFFD)]

/-- Predicate modelling `unicodedata.east_asian_width(c) in ('F', 'W')`
from `get_display_width` (stock.py line 114). -/
def eastAsianFW (c : Char) : Bool :=
  wideRanges.any (fun r => decide (r.1 ≤ c.toNat) && decide (c.toNat ≤ r.2))

/-- Model of `StockMonitor.get_display_width` (stock.py lines 106-118): running total
over the characters, adding 2 for a Fullwidth/Wide character and 1 otherwise. -/
def get_display_width (s : List Char) : Nat :=
  s.foldl (fun width c => if eastAsianFW c then width + 2 else width + 1) 0

/-- Model of `StockMonitor.align_text` (stock.py lines 121-135).  The padding deficit
is computed in `ℤ` exactly as Python computes `target_width - actual_width`
on `int`s; `' ' * padding_needed` is `List.replicate`; `//` on the
non-negative deficit is natural floor division. -/
def align_text (text : List Char) (target_width : Nat) (align : String) : List Char :=
  let actual_width := get_display_width text
  let padding_needed : Int := (target_width : Int) - (actual_width : Int)
  if padding_needed ≤ 0 then text
  else if align = "left" then text ++ List.replicate padding_needed.toNat ' '
  else if align = "right" then List.replicate padding_needed.toNat ' ' ++ text
  else if align = "center" then
    let left_padding := padding_needed.toNat / 2
    let right_padding := padding_needed.toNat - left_padding
    List.replicate left_padding ' ' ++ text ++ List.replicate right_padding ' '
  else text

theorem get_display_width_nil : get_display_width [] = 0 := rfl

theorem get_display_width_eq_sum (s : List Char) :
    get_display_width s = (s.map (fun c => if eastAsianFW c then 2 else 1)).sum := by
  suffices h : ∀ (s : List Char) (acc : Nat),
      s.foldl (fun width c => if eastAsianFW c then width + 2 else width + 1) acc
        = acc + (s.map (fun c => if eastAsianFW c then 2 else 1)).sum by
    simpa [get_display_width] using h s 0
  intro s
  induction s with
  | nil => intro acc; simp
  | cons c t ih =>
    intro acc
    by_cases hc : eastAsianFW c <;> simp [hc, ih, Nat.add_assoc, Nat.add_comm 2, Nat.add_comm 1]

theorem get_display_width_append (s t : List Char) :
    get_display_width (s ++ t) = get_display_width s + get_display_width t := by
  simp [get_display_width_eq_sum]

theorem get_display_width_cons (c : Char) (t : List Char) :
    get_display_width (c :: t)
      = (if eastAsianFW c then 2 else 1) + get_display_width t := by
  by_cases hc : eastAsianFW c <;> simp [get_display_width_eq_sum, hc]

theorem get_display_width_replicate_space (n : Nat) :
    get_display_width (List.replicate n ' ') = n := by
  induction n with
  | zero => rfl
  | succ n ih =>
    rw [List.replicate_succ, get_display_width_cons, ih]
    have hsp : eastAsianFW ' ' = false := by decide
    simp [hsp, Nat.add_comm]

/-- Python `raw_data.split('="')` (stock.py line 76), specialised to the
two-character separator `="`: every occurrence of the separator splits the
string, and a string without the separator is returned whole as a
one-element list. -/
def splitEnv : List Char → List (List Char)
  | [] => [[]]
  | [c] => [[c]]
  | c :: c' :: rest =>
    if c = '=' ∧ c' = '"' then [] :: splitEnv rest
    else ((splitEnv (c' :: rest)).modifyHead (c :: ·))

/-- Whether the separator `="` occurs anywhere in the string; `false` means
the payload lacks the `="` envelope marker that `split('="')[1]` needs. -/
def containsEnvMark : List Char → Bool
  | [] => false
  | [_] => false
  | c :: c' :: rest => (c == '=' && c' == '"') || containsEnvMark (c' :: rest)

/-- Python `.rstrip('";')` (stock.py line 76): removes every trailing
character that is `"` or `;`. -/
def envStrip (s : List Char) : List Char :=
  (s.reverse.dropWhile (fun c => c == '"' || c == ';')).reverse

/-- Whether the last character survives `envStrip` (i.e. is not `"` or `;`);
vacuously true for the empty string. -/
def cleanTail (s : List Char) : Bool :=
  match s.getLast? with
  | some c => !(c == '"' || c == ';')
  | none => true

/-- Value of a digit string read left to right, as Python's number parser
accumulates it. -/
def digitsVal (cs : List Char) : Nat :=
  cs.foldl (fun a c => 10 * a + (c.toNat - 48)) 0

/-- Model of Python `float(s)` on an unsigned decimal literal: either
`digits` or `digits.digits` (one of the two digit groups may be empty, but
not both).  Exponent forms and the special words accepted by `float` do not
occur in this development and are not modelled. -/
def parseUnsigned (cs : List Char) : Option ℚ :=
  match cs.splitOn '.' with
  | [d] =>
      if d ≠ [] ∧ d.all Char.isDigit then some (digitsVal d : ℚ) else none
  | [d, f] =>
      if (d ≠ [] ∨ f ≠ []) ∧ d.all Char.isDigit ∧ f.all Char.isDigit then
        some ((digitsVal d : ℚ) + (digitsVal f : ℚ) / 10 ^ f.length)
      else none
  | _ => none

/-- Model of Python `float(s)` (stock.py lines 83-87): optional sign
followed by an unsigned decimal literal; anything else fails (Python raises
`ValueError`, caught at line 99 and turned into `None`). -/
def parseFloatChars (cs : List Char) : Option ℚ :=
  if cs.head? = some '+' then parseUnsigned cs.tail
  else if cs.head? = some '-' then (parseUnsigned cs.tail).map (fun v => -v)
  else parseUnsigned cs

/-- The parsed quote record: the dictionary built at stock.py lines 81-88.
`openPrice` models the `'open'` key. -/
structure StockInfo where
  name : List Char
  current : ℚ
  close : ℚ
  openPrice : ℚ
  high : ℚ
  low : ℚ
deriving DecidableEq

/-- Model of `data_str.split('~')` after the envelope has been located and stripped
(stock.py lines 76-77): `None` when `split('="')[1]` raises `IndexError`. -/
def quoteFields (raw : List Char) : Option (List (List Char)) :=
  ((splitEnv raw)[1]?).map (fun part => (envStrip part).splitOn '~')

/-- Field extraction from the split fields (stock.py lines 81-88), in the
evaluation order of the dictionary literal: any missing index or failed
`float` conversion is an `IndexError`/`ValueError`, caught at line 99 and
turned into `None`. -/
def parseFields (fields : List (List Char)) : Option StockInfo :=
  (fields[1]?).bind fun nm =>
  ((fields[3]?).bind parseFloatChars).bind fun current =>
  ((fields[4]?).bind parseFloatChars).bind fun close =>
  ((fields[5]?).bind parseFloatChars).bind fun opn =>
  ((fields[33]?).bind parseFloatChars).bind fun high =>
  ((fields[34]?).bind parseFloatChars).bind fun low =>
  some ⟨nm, current, close, opn, high, low⟩

/-- The parsing section of `StockMonitor.get_stock_price_optimized`
(stock.py lines 75-101): from the raw response text to either a quote
record or `None`.  Total by construction: every failure path of the Python
code is caught by the `except` clauses and returns `None`. -/
def parseQuote (raw : List Char) : Option StockInfo :=
  (quoteFields raw).bind parseFields

/-- The ASCII character of the decimal digit `d`. -/
def digitChar (d : Nat) : Char := Char.ofNat (48 + d)

/-- Decimal rendering of a natural number, most significant digit first. -/
def natToChars (n : Nat) : List Char :=
  if n = 0 then ['0'] else ((Nat.digits 10 n).map digitChar).reverse

/-- Rendering `natToChars m` left-padded with zeros to `k` digits. -/
def zeroPad (k m : Nat) : List Char :=
  List.replicate (k - (natToChars m).length) '0' ++ natToChars m

/-- Smallest `k ≤ d` with `d ∣ 10 ^ k`, when one exists (i.e. when the
denominator admits a finite decimal expansion). -/
def decExp? (d : Nat) : Option Nat :=
  (List.range (d + 1)).find? (fun k => 10 ^ k % d == 0)

/-- Decimal rendering of the rational `x` with `k` fractional digits
(meaningful when `x.den ∣ 10 ^ k`): optional minus sign, integer digits,
and for `k ≠ 0` a point followed by exactly `k` fractional digits. -/
def ratSignedChars (x : ℚ) (k : Nat) : List Char :=
  let n : Nat := x.num.natAbs * (10 ^ k / x.den)
  let body :=
    if k = 0 then natToChars n
    else natToChars (n / 10 ^ k) ++ '.' :: zeroPad k (n % 10 ^ k)
  if x.num < 0 then '-' :: body else body

/-- Decimal rendering of a rational, when its denominator divides a power
of ten. -/
def ratToDecChars? (x : ℚ) : Option (List Char) :=
  (decExp? x.den).map (ratSignedChars x)

theorem digitChar_toNat {d : Nat} (h : d < 10) : (digitChar d).toNat = 48 + d := by
  interval_cases d <;> decide

theorem digitChar_isDigit {d : Nat} (h : d < 10) : (digitChar d).isDigit = true := by
  interval_cases d <;> decide

theorem isDigit_ne (c : Char) (h : c.isDigit = true) :
    c ≠ '.' ∧ c ≠ '~' ∧ c ≠ '=' ∧ c ≠ '"' ∧ c ≠ ';' ∧ c ≠ '+' ∧ c ≠ '-' := by
  refine ⟨?_, ?_, ?_, ?_, ?_, ?_, ?_⟩ <;> rintro rfl <;> exact absurd h (by decide)

theorem natToChars_isDigit (n : Nat) : ∀ c ∈ natToChars n, c.isDigit = true := by
  intro c hc
  unfold natToChars at hc
  by_cases hn : n = 0
  · simp [hn] at hc
    simp [hc]
  · simp [hn, List.mem_reverse, List.mem_map] at hc
    obtain ⟨d, hd, rfl⟩ := hc
    exact digitChar_isDigit (Nat.digits_lt_base (by norm_num) hd)

theorem natToChars_ne_nil (n : Nat) : natToChars n ≠ [] := by
  unfold natToChars
  by_cases hn : n = 0
  · simp [hn]
  · simp [hn, Nat.digits_ne_nil_iff_ne_zero.mpr hn]

theorem zeroPad_isDigit (k m : Nat) : ∀ c ∈ zeroPad k m, c.isDigit = true := by
  intro c hc
  unfold zeroPad at hc
  rcases List.mem_append.mp hc with h | h
  · have := List.eq_of_mem_replicate h
    subst this; decide
  · exact natToChars_isDigit m c h

theorem digitsVal_append_singleton (xs : List Char) (c : Char) :
    digitsVal (xs ++ [c]) = 10 * digitsVal xs + (c.toNat - 48) := by
  simp [digitsVal, List.foldl_append]

theorem digitsVal_digit_list (L : List Nat) (hL : ∀ d ∈ L, d < 10) :
    digitsVal ((L.map digitChar).reverse) = Nat.ofDigits 10 L := by
  induction L with
  | nil => simp [digitsVal, Nat.ofDigits_nil]
  | cons d L ih =>
    have hd : d < 10 := hL d (by simp)
    have hrest : ∀ e ∈ L, e < 10 := fun e he => hL e (by simp [he])
    rw [List.map_cons, List.reverse_cons, digitsVal_append_singleton, ih hrest,
      Nat.ofDigits_cons, digitChar_toNat hd]
    omega

theorem digitsVal_natToChars (n : Nat) : digitsVal (natToChars n) = n := by
  unfold natToChars
  by_cases hn : n = 0
  · simp [hn]; decide
  · rw [if_neg hn, digitsVal_digit_list _ (fun d hd => Nat.digits_lt_base (by norm_num) hd),
      Nat.ofDigits_digits]

theorem digitsVal_replicate_zero (j : Nat) (cs : List Char) :
    digitsVal (List.replicate j '0' ++ cs) = digitsVal cs := by
  induction j with
  | zero => simp
  | succ j ih => simpa [List.replicate_succ, digitsVal] using ih

theorem digitsVal_zeroPad (k m : Nat) : digitsVal (zeroPad k m) = m := by
  rw [zeroPad, digitsVal_replicate_zero, digitsVal_natToChars]

theorem digits_length_le_of_lt_pow {m k : Nat} (h : m < 10 ^ k) :
    (Nat.digits 10 m).length ≤ k := by
  by_contra hlt
  push_neg at hlt
  rcases Nat.eq_zero_or_pos m with rfl | hm
  · simp at hlt
  · have h1 := Nat.base_pow_length_digits_le 10 m (by norm_num) (Nat.pos_iff_ne_zero.mp hm)
    have h2 : 10 ^ (k + 1) ≤ 10 ^ (Nat.digits 10 m).length :=
      Nat.pow_le_pow_right (by norm_num) hlt
    have h3 : 10 * 10 ^ k ≤ 10 * m := by
      calc 10 * 10 ^ k = 10 ^ (k + 1) := by ring
      _ ≤ 10 ^ (Nat.digits 10 m).length := h2
      _ ≤ 10 * m := h1
    omega

theorem natToChars_length_le {m k : Nat} (hk : 1 ≤ k) (hm : m < 10 ^ k) :
    (natToChars m).length ≤ k := by
  unfold natToChars
  by_cases hz : m = 0
  · simpa [hz] using hk
  · simpa [hz] using digits_length_le_of_lt_pow hm

theorem zeroPad_length {k m : Nat} (hk : 1 ≤ k) (hm : m < 10 ^ k) :
    (zeroPad k m).length = k := by
  have := natToChars_length_le hk hm
  simp [zeroPad]
  omega

theorem splitOn_eq_single {x : Char} {xs : List Char} (h : x ∉ xs) :
    xs.splitOn x = [xs] := by
  simp only [List.splitOn]
  refine List.splitOnP_eq_single _ _ ?_
  intro y hy hbeq
  exact h (by rwa [eq_of_beq hbeq] at hy)

theorem splitOn_append_cons {x : Char} {xs as : List Char} (h : x ∉ xs) :
    (xs ++ x :: as).splitOn x = xs :: as.splitOn x := by
  simp only [List.splitOn]
  refine List.splitOnP_first _ _ ?_ x (by simp) as
  intro y hy hbeq
  exact h (by rwa [eq_of_beq hbeq] at hy)

theorem parseUnsigned_digits (d : List Char) (hne : d ≠ [])
    (hd : ∀ c ∈ d, c.isDigit = true) :
    parseUnsigned d = some (digitsVal d : ℚ) := by
  have hnp : '.' ∉ d := fun hmem => ((isDigit_ne _ (hd _ hmem)).1 rfl)
  rw [parseUnsigned, splitOn_eq_single hnp]
  simp [hne, List.all_eq_true.mpr hd]

theorem parseUnsigned_intfrac (d f : List Char) (hne : d ≠ [])
    (hd : ∀ c ∈ d, c.isDigit = true) (hf : ∀ c ∈ f, c.isDigit = true) :
    parseUnsigned (d ++ '.' :: f)
      = some ((digitsVal d : ℚ) + (digitsVal f : ℚ) / 10 ^ f.length) := by
  have hnpd : '.' ∉ d := fun hmem => ((isDigit_ne _ (hd _ hmem)).1 rfl)
  have hnpf : '.' ∉ f := fun hmem => ((isDigit_ne _ (hf _ hmem)).1 rfl)
  rw [parseUnsigned, splitOn_append_cons hnpd, splitOn_eq_single hnpf]
  simp [hne, List.all_eq_true.mpr hd, List.all_eq_true.mpr hf]

theorem parseFloatChars_of_digit_head {cs : List Char}
    (h : ∃ c, cs.head? = some c ∧ c.isDigit = true) :
    parseFloatChars cs = parseUnsigned cs := by
  obtain ⟨c, hc, hdig⟩ := h
  have h1 : c ≠ '+' := (isDigit_ne c hdig).2.2.2.2.2.1
  have h2 : c ≠ '-' := (isDigit_ne c hdig).2.2.2.2.2.2
  rw [parseFloatChars, hc]
  simp [h1, h2]

theorem natToChars_head_append (m : Nat) (rest : List Char) :
    ∃ c, (natToChars m ++ rest).head? = some c ∧ c.isDigit = true := by
  rcases hcs : natToChars m with _ | ⟨c, t⟩
  · exact absurd hcs (natToChars_ne_nil m)
  · refine ⟨c, by simp, natToChars_isDigit m c ?_⟩
    rw [hcs]; exact List.mem_cons_self c t

theorem cast_div_add_mod_div (n p : Nat) (hp : (p : ℚ) ≠ 0) :
    ((n / p : Nat) : ℚ) + ((n % p : Nat) : ℚ) / (p : ℚ) = (n : ℚ) / (p : ℚ) := by
  have h := Nat.div_add_mod n p
  have hq : ((p * (n / p) + n % p : Nat) : ℚ) = (n : ℚ) :=
    congrArg (fun m : Nat => (m : ℚ)) h
  push_cast at hq
  field_simp
  linarith [hq]

theorem parseFloatChars_neg_cons (body : List Char) :
    parseFloatChars ('-' :: body) = (parseUnsigned body).map (fun v => -v) := by
  have hne : (some '-' : Option Char) ≠ some '+' := by decide
  rw [parseFloatChars]
  simp only [List.head?_cons, List.tail_cons]
  simp

theorem ratSignedChars_parse (x : ℚ) (k : Nat) (hdvd : x.den ∣ 10 ^ k) :
    parseFloatChars (ratSignedChars x k) = some x := by
  have hdenq : (x.den : ℚ) ≠ 0 := Nat.cast_ne_zero.mpr x.den_nz
  set n : Nat := x.num.natAbs * (10 ^ k / x.den) with hn
  have habs : ((n : ℚ)) / 10 ^ k = (x.num.natAbs : ℚ) / (x.den : ℚ) := by
    have hcast : ((10 ^ k / x.den : Nat) : ℚ) = (10 : ℚ) ^ k / (x.den : ℚ) := by
      rw [Nat.cast_div hdvd hdenq]; push_cast; ring
    rw [hn]
    push_cast [hcast]
    have hpk : (10 : ℚ) ^ k ≠ 0 := by positivity
    field_simp
    ring
  -- the unsigned body parses to |x.num| / x.den
  have hbody : parseFloatChars
      (if k = 0 then natToChars n
       else natToChars (n / 10 ^ k) ++ '.' :: zeroPad k (n % 10 ^ k))
        = some ((x.num.natAbs : ℚ) / (x.den : ℚ)) ∧
      parseUnsigned
      (if k = 0 then natToChars n
       else natToChars (n / 10 ^ k) ++ '.' :: zeroPad k (n % 10 ^ k))
        = some ((x.num.natAbs : ℚ) / (x.den : ℚ)) := by
    by_cases hk : k = 0
    · subst hk
      have hden1 : x.den = 1 := Nat.dvd_one.mp (by simpa using hdvd)
      have hval : (digitsVal (natToChars n) : ℚ) = (x.num.natAbs : ℚ) / (x.den : ℚ) := by
        rw [digitsVal_natToChars]
        have hnabs : n = x.num.natAbs := by simp [hn, hden1]
        rw [hnabs, hden1]
        simp
      have hpu := parseUnsigned_digits (natToChars n) (natToChars_ne_nil n)
        (natToChars_isDigit n)
      constructor
      · rw [if_pos rfl,
          parseFloatChars_of_digit_head (by simpa using natToChars_head_append n []),
          hpu, hval]
      · rw [if_pos rfl, hpu, hval]
    · have hk1 : 1 ≤ k := Nat.one_le_iff_ne_zero.mpr hk
      have hppos : (0 : Nat) < 10 ^ k := Nat.pos_pow_of_pos k (by norm_num)
      have hmlt : n % 10 ^ k < 10 ^ k := Nat.mod_lt _ hppos
      have hdigs : ∀ c ∈ natToChars (n / 10 ^ k), c.isDigit = true :=
        natToChars_isDigit _
      have hfr : ∀ c ∈ zeroPad k (n % 10 ^ k), c.isDigit = true := zeroPad_isDigit _ _
      have hval : (digitsVal (natToChars (n / 10 ^ k)) : ℚ)
          + (digitsVal (zeroPad k (n % 10 ^ k)) : ℚ) / 10 ^ (zeroPad k (n % 10 ^ k)).length
            = (x.num.natAbs : ℚ) / (x.den : ℚ) := by
        rw [digitsVal_natToChars, digitsVal_zeroPad, zeroPad_length hk1 hmlt, ← habs]
        have hpq : ((10 : ℚ)) ^ k ≠ 0 := by positivity
        have hdm := cast_div_add_mod_div n (10 ^ k) (by push_cast; exact hpq)
        push_cast at hdm ⊢
        linarith [hdm]
      have hpu := parseUnsigned_intfrac (natToChars (n / 10 ^ k)) (zeroPad k (n % 10 ^ k))
        (natToChars_ne_nil _) hdigs hfr
      constructor
      · rw [if_neg hk, parseFloatChars_of_digit_head (natToChars_head_append _ _), hpu, hval]
      · rw [if_neg hk, hpu, hval]
  by_cases hneg : x.num < 0
  · have hform : ratSignedChars x k
        = '-' :: (if k = 0 then natToChars n
            else natToChars (n / 10 ^ k) ++ '.' :: zeroPad k (n % 10 ^ k)) := by
      rw [ratSignedChars]; simp [hneg, hn]
    rw [hform, parseFloatChars_neg_cons, hbody.2]
    have hx : -((x.num.natAbs : ℚ) / (x.den : ℚ)) = x := by
      have h1 : (x.num.natAbs : ℤ) = -x.num := Int.ofNat_natAbs_of_nonpos hneg.le
      have h2 : ((x.num.natAbs : ℚ)) = -(x.num : ℚ) := by
        calc ((x.num.natAbs : ℚ)) = ((x.num.natAbs : ℤ) : ℚ) := (Int.cast_natCast _).symm
          _ = ((-x.num : ℤ) : ℚ) := by rw [h1]
          _ = -(x.num : ℚ) := by push_cast; ring
      rw [h2, neg_div, neg_neg, Rat.num_div_den]
    simp [hx]
  · have hform : ratSignedChars x k
        = (if k = 0 then natToChars n
            else natToChars (n / 10 ^ k) ++ '.' :: zeroPad k (n % 10 ^ k)) := by
      rw [ratSignedChars]; simp [hneg, hn]
    rw [hform, hbody.1]
    have hx : ((x.num.natAbs : ℚ) / (x.den : ℚ)) = x := by
      have h1 : (x.num.natAbs : ℤ) = x.num := Int.natAbs_of_nonneg (not_lt.mp hneg)
      have h2 : ((x.num.natAbs : ℚ)) = (x.num : ℚ) := by
        calc ((x.num.natAbs : ℚ)) = ((x.num.natAbs : ℤ) : ℚ) := (Int.cast_natCast _).symm
          _ = ((x.num : ℤ) : ℚ) := by rw [h1]
          _ = (x.num : ℚ) := rfl
      rw [h2, Rat.num_div_den]
    simp [hx]

theorem splitEnv_no_mark : ∀ (s : List Char), containsEnvMark s = false → splitEnv s = [s]
  | [], _ => rfl
  | [_], _ => rfl
  | c :: c' :: rest, h => by
    have h1 : ¬(c = '=' ∧ c' = '"') := by
      rintro ⟨rfl, rfl⟩
      simp [containsEnvMark] at h
    have h2 : containsEnvMark (c' :: rest) = false := by
      rw [containsEnvMark] at h
      exact (Bool.or_eq_false_iff.mp h).2
    rw [splitEnv, if_neg h1, splitEnv_no_mark (c' :: rest) h2]
    rfl

theorem splitEnv_append_mark : ∀ (pre rest : List Char), '=' ∉ pre →
    splitEnv (pre ++ '=' :: '"' :: rest) = pre :: splitEnv rest
  | [], rest, _ => by
    rw [List.nil_append, splitEnv, if_pos ⟨rfl, rfl⟩]
  | [c], rest, h => by
    have hc : c ≠ '=' := fun hh => h (by simp [hh])
    have hq : ¬(('=' : Char) = '"') := by decide
    show splitEnv (c :: '=' :: '"' :: rest) = [c] :: splitEnv rest
    rw [splitEnv.eq_3, if_neg (fun hand => hq hand.2), splitEnv.eq_3, if_pos ⟨rfl, rfl⟩]
    rfl
  | c :: c' :: pre', rest, h => by
    have hc : c ≠ '=' := fun hh => h (by simp [hh])
    have hmem : '=' ∉ c' :: pre' := fun hm => h (List.mem_cons_of_mem _ hm)
    have hrec := splitEnv_append_mark (c' :: pre') rest hmem
    rw [List.cons_append] at hrec
    show splitEnv ((c :: c' :: pre') ++ '=' :: '"' :: rest)
      = (c :: c' :: pre') :: splitEnv rest
    rw [List.cons_append, List.cons_append, splitEnv.eq_3,
      if_neg (fun hand => hc hand.1), hrec]
    rfl

theorem envStrip_append_close (s : List Char) :
    envStrip (s ++ ['"', ';']) = envStrip s := by
  unfold envStrip
  simp [List.dropWhile]

theorem envStrip_of_cleanTail {s : List Char} (h : cleanTail s = true) : envStrip s = s := by
  rcases hr : s.reverse with _ | ⟨c, t⟩
  · have hs : s = [] := by simpa using congrArg List.reverse hr
    subst hs; rfl
  · have hs : s = t.reverse ++ [c] := by
      have h2 := congrArg List.reverse hr
      simpa using h2
    have hlast : s.getLast? = some c := by rw [hs, List.getLast?_concat]
    rw [cleanTail, hlast] at h
    have hp : (c == '"' || c == ';') = false := by
      cases hb : (c == '"' || c == ';') <;> simp [hb] at h ⊢
    unfold envStrip
    rw [hr, List.dropWhile_cons, hp]
    simp only [Bool.false_eq_true, if_false]
    rw [← hr, List.reverse_reverse]

theorem intercalate_tilde_single (x : List Char) : List.intercalate ['~'] [x] = x := by
  simp [List.intercalate]

theorem intercalate_tilde_cons (x y : List Char) (rest : List (List Char)) :
    List.intercalate ['~'] (x :: y :: rest)
      = x ++ '~' :: List.intercalate ['~'] (y :: rest) := by
  simp [List.intercalate, List.intersperse_cons_cons]

theorem mem_intercalate_tilde : ∀ {a : Char} (ls : List (List Char)),
    a ∈ List.intercalate ['~'] ls → a = '~' ∨ ∃ l, l ∈ ls ∧ a ∈ l
  | a, [], h => by simp [List.intercalate] at h
  | a, [x], h => by
    rw [intercalate_tilde_single] at h
    exact Or.inr ⟨x, by simp, h⟩
  | a, x :: y :: rest, h => by
    rw [intercalate_tilde_cons] at h
    rcases List.mem_append.mp h with hx | hy
    · exact Or.inr ⟨x, by simp, hx⟩
    · rcases List.mem_cons.mp hy with rfl | hy'
      · exact Or.inl rfl
      · rcases mem_intercalate_tilde (y :: rest) hy' with ht | ⟨l, hl, hal⟩
        · exact Or.inl ht
        · exact Or.inr ⟨l, List.mem_cons_of_mem _ hl, hal⟩

theorem intercalate_tilde_cons₂_ne_nil (y z : List Char) (rest : List (List Char)) :
    List.intercalate ['~'] (y :: z :: rest) ≠ [] := by
  rw [intercalate_tilde_cons]
  simp

theorem exists_concat_intercalate : ∀ (ls : List (List Char)) (t : List Char),
    ∃ pre, List.intercalate ['~'] (ls ++ [t]) = pre ++ t
  | [], t => ⟨[], by rw [List.nil_append, intercalate_tilde_single, List.nil_append]⟩
  | [x], t => ⟨x ++ ['~'], by
      rw [List.cons_append, List.nil_append, intercalate_tilde_cons,
        intercalate_tilde_single]
      simp⟩
  | x :: y :: ls', t => by
    obtain ⟨pre', hpre'⟩ := exists_concat_intercalate (y :: ls') t
    rw [List.cons_append] at hpre'
    refine ⟨x ++ '~' :: pre', ?_⟩
    rw [List.cons_append, List.cons_append, intercalate_tilde_cons, hpre']
    simp

theorem cleanTail_concat {pre t : List Char} (ht : t ≠ []) :
    cleanTail (pre ++ t) = cleanTail t := by
  rcases List.eq_nil_or_concat t with rfl | ⟨t', c, rfl⟩
  · exact absurd rfl ht
  · rw [cleanTail, cleanTail, List.concat_eq_append, ← List.append_assoc,
      List.getLast?_concat, List.getLast?_concat]

/-- The exceptions that can escape the refresh loop's sort/render phase
(`StockMonitor.run`, stock.py lines 211-212).  `run` catches only
`KeyboardInterrupt`, so either of these aborts the cycle and the process:
`typeErrorNone` models `TypeError: 'NoneType' object is not subscriptable`
(the sort key subscripting a `None` outcome), `zeroDivision` models
`ZeroDivisionError: float division by zero`. -/
inductive PyError where
  | typeErrorNone
  | zeroDivision
deriving DecidableEq

/-- One evaluation of the sort key
`lambda stock_info: (stock_info['current'] - stock_info['close']) / stock_info['close']`
(stock.py line 211) on a single outcome. -/
def sortKeyE (o : Option StockInfo) : Except PyError ℚ :=
  match o with
  | none => Except.error PyError.typeErrorNone
  | some si =>
    if si.close = 0 then Except.error PyError.zeroDivision
    else Except.ok ((si.current - si.close) / si.close)

/-- Total version of the sort key used to order outcomes once all key
evaluations are known to succeed; the defaults are never reached in the
success branch of `sortOutcomes`. -/
def pyKeyD (o : Option StockInfo) : ℚ :=
  match o with
  | some si => if si.close = 0 then 0 else (si.current - si.close) / si.close
  | none => 0

/-- Stable insertion of `a` in front of the first element whose key is not
greater: among equal keys the earlier (inserted-later) element stays first. -/
def insertDesc {α : Type} (key : α → ℚ) (a : α) : List α → List α
  | [] => [a]
  | b :: l => if key b ≤ key a then a :: b :: l else b :: insertDesc key a l

/-- Stable descending-by-key insertion sort: the unique permutation that is
weakly descending on the key and keeps equal-key elements in input order.
This is the output contract of CPython's stable `sorted(..., reverse=True)`. -/
def stableSortDesc {α : Type} (key : α → ℚ) : List α → List α
  | [] => []
  | a :: l => insertDesc key a (stableSortDesc key l)

/-- Model of `sorted(stock_info_list, key=..., reverse=True)` (stock.py line 211):
CPython first evaluates the key on every element in list order — the first
evaluation that raises aborts the sort — and then produces the stable
descending-by-key permutation. -/
def sortOutcomes (outcomes : List (Option StockInfo)) :
    Except PyError (List (Option StockInfo)) :=
  match outcomes.mapM sortKeyE with
  | Except.error e => Except.error e
  | Except.ok _ => Except.ok (stableSortDesc pyKeyD outcomes)

/-- Round-half-to-even of a rational to an integer: the tie-breaking rule
Python's `format(..., '.2f')` applies to the scaled value. -/
def roundHalfEven (q : ℚ) : ℤ :=
  let f := q.floor
  let r := q - (f : ℚ)
  if r < 1 / 2 then f
  else if 1 / 2 < r then f + 1
  else if f % 2 = 0 then f else f + 1

/-- Python `format(x, '[+]width.2f')` on a non-special value: round to two
decimals (half to even), render sign, integer digits, point and exactly two
fractional digits, then right-align by character count to `width` with
spaces.  Used for the `f"{...:>.2f}"`-style fields of
`display_stock_info` (stock.py lines 168-172). -/
def fmtFixed (plus : Bool) (width : Nat) (x : ℚ) : List Char :=
  let n : Nat := (roundHalfEven (|x| * 100)).toNat
  let body := natToChars (n / 100) ++ '.' :: zeroPad 2 (n % 100)
  let signed :=
    if x < 0 then '-' :: body else if plus then '+' :: body else body
  List.replicate (width - signed.length) ' ' ++ signed

/-- Python `f"{s:>w}"`: right-align by character count (`str.__format__`
counts characters, not display width). -/
def padLeftLen (w : Nat) (s : List Char) : List Char :=
  List.replicate (w - s.length) ' ' ++ s

/-- The color prefix chosen at stock.py line 162:
`"\033[32m" if change < 0 else "\033[31m"` — green for a loss, red for a
gain or no change (the convention is deliberately the reverse of the
Western one). -/
def colorFor (change : ℚ) : List Char :=
  if change < 0 then "\x1b[32m".toList else "\x1b[31m".toList

/-- The direction arrow chosen at stock.py line 164:
`"↑" if change >= 0 else "↓"`. -/
def symbolFor (change : ℚ) : List Char :=
  if 0 ≤ change then "↑".toList else "↓".toList

/-- The reset escape `"\033[0m"` (stock.py line 163). -/
def resetCode : List Char := "\x1b[0m".toList

/-- The `str_dict` of six already-formatted cells passed to
`display_one_line` (stock.py lines 175-182 and 198-205). -/
structure StrDict where
  code : List Char
  name : List Char
  current : List Char
  change : List Char
  high : List Char
  low : List Char

/-- Model of `StockMonitor.display_one_line` (stock.py lines 137-154): each cell is
aligned with `align_text` to the fixed column widths 10/12/10/18/10/10
(code and name left-aligned, the rest right-aligned), joined by single
spaces. -/
def display_one_line (d : StrDict) : List Char :=
  align_text d.code 10 "left" ++ ' ' ::
    (align_text d.name 12 "left" ++ ' ' ::
      (align_text d.current 10 "right" ++ ' ' ::
        (align_text d.change 18 "right" ++ ' ' ::
          (align_text d.high 10 "right" ++ ' ' ::
            align_text d.low 10 "right"))))

/-- The placeholder cell `'N/A'` of the unavailable-data row
(stock.py line 186). -/
def naCell : List Char := "N/A".toList

/-- Model of `StockMonitor.display_stock_info` (stock.py lines 156-186): a valid
quote is formatted into a coloured row via `display_one_line`; a `None`
outcome is printed as the fixed-width `N/A` placeholder row (right-aligned
by character count, per Python's format specifiers).  Line 160 divides by
`stock_info['close']` with no guard, so a zero previous close raises
`ZeroDivisionError`. -/
def displayStockInfo (o : Option StockInfo) (stock_code : List Char) :
    Except PyError (List Char) :=
  match o with
  | some si =>
    if si.close = 0 then Except.error PyError.zeroDivision
    else
      let change := si.current - si.close
      let change_percent := change / si.close * 100
      let change_str := colorFor change ++ fmtFixed true 7 change ++ ' ' ::
        ('(' :: (fmtFixed true 6 change_percent ++ "%)".toList))
        ++ symbolFor change ++ resetCode
      Except.ok (display_one_line
        { code := stock_code
          name := si.name
          current := fmtFixed false 0 si.current
          change := change_str
          high := fmtFixed false 7 si.high
          low := fmtFixed false 7 si.low })
  | none =>
      Except.ok (padLeftLen 10 stock_code ++ ' ' ::
        (padLeftLen 12 naCell ++ ' ' ::
          (padLeftLen 10 naCell ++ ' ' ::
            (padLeftLen 18 naCell ++ ' ' ::
              (padLeftLen 10 naCell ++ ' ' :: padLeftLen 10 naCell)))))

/-- The header row printed at the top of each cycle
(stock.py lines 198-206). -/
def headerLine : List Char :=
  display_one_line
    { code := "代码".toList
      name := "名称".toList
      current := "当前".toList
      change := "涨跌".toList
      high := "最高".toList
      low := "最低".toList }

/-- One refresh cycle of `StockMonitor.run` (stock.py lines 198-213),
abstracted over the fetch+parse step: print the header, fetch every
configured code in order into `stock_info_list`, sort it, and display each
sorted outcome.  The second argument of `display_stock_info` at line 212 is
the leftover loop variable `code`, which after the fetch loop is the LAST
configured code (the loop is only entered with a nonempty code list).
The screen-clear escapes and the trailing wall-clock timestamp line are
output effects carrying no quote data and are not modelled.  Returns the
printed rows (header first), or the first uncaught exception — `run`
catches only `KeyboardInterrupt`, so an error aborts the cycle and the
process. -/
def runCycle (fetch : List Char → Option StockInfo) (codes : List (List Char)) :
    Except PyError (List (List Char)) :=
  let outcomes := codes.map fetch
  match sortOutcomes outcomes with
  | Except.error e => Except.error e
  | Except.ok sortedOutcomes =>
    match sortedOutcomes.mapM (fun o => displayStockInfo o (codes.getLastD [])) with
    | Except.error e => Except.error e
    | Except.ok rows => Except.ok (headerLine :: rows)

/-- C7: for every string the display width equals the sum over its
characters of 2 if the character's East-Asian-width class is Fullwidth or
Wide and 1 otherwise; hence an all-single-width string has width equal to
its character count, an all-double-width string has width twice its
character count, and mixed strings (concatenations) sum the per-character
widths. -/
theorem C7_display_width_sum (s t : List Char) :
    get_display_width s = (s.map (fun c => if eastAsianFW c then 2 else 1)).sum
    ∧ ((∀ c ∈ s, eastAsianFW c = false) → get_display_width s = s.length)
    ∧ ((∀ c ∈ s, eastAsianFW c = true) → get_display_width s = 2 * s.length)
    ∧ get_display_width (s ++ t) = get_display_width s + get_display_width t := by
  refine ⟨get_display_width_eq_sum s, ?_, ?_, get_display_width_append s t⟩
  · intro h
    rw [get_display_width_eq_sum]
    have hmap : s.map (fun c => if eastAsianFW c then 2 else 1)
        = s.map (fun _ => 1) :=
      List.map_congr_left (fun a ha => by simp [h a ha])
    simp [hmap]
  · intro h
    rw [get_display_width_eq_sum]
    have hmap : s.map (fun c => if eastAsianFW c then 2 else 1)
        = s.map (fun _ => 2) :=
      List.map_congr_left (fun a ha => by simp [h a ha])
    simp [hmap, Nat.mul_comm]

/-- C7 witness: an all-ASCII code has width equal to its length, an
all-CJK name has width twice its length. -/
theorem C7_display_width_sum_witness :
    get_display_width "sh601318".toList = "sh601318".toList.length
    ∧ get_display_width "中国平安".toList = 2 * "中国平安".toList.length :=
  ⟨(C7_display_width_sum "sh601318".toList []).2.1 (by decide),
   (C7_display_width_sum "中国平安".toList []).2.2.1 (by decide)⟩

/-- Behaviour of `align_text` in the three modes: unchanged when wide
enough, otherwise space-padded per mode; never shorter than the text. -/
theorem align_text_spec (text : List Char) (w : Nat) (mode : String)
    (hmode : mode = "left" ∨ mode = "right" ∨ mode = "center") :
    (w ≤ get_display_width text → align_text text w mode = text)
    ∧ (get_display_width text < w →
        align_text text w "left"
            = text ++ List.replicate (w - get_display_width text) ' '
        ∧ align_text text w "right"
            = List.replicate (w - get_display_width text) ' ' ++ text
        ∧ align_text text w "center"
            = List.replicate ((w - get_display_width text) / 2) ' ' ++ text
              ++ List.replicate ((w - get_display_width text)
                  - (w - get_display_width text) / 2) ' ')
    ∧ text.length ≤ (align_text text w mode).length := by
  refine ⟨?_, ?_, ?_⟩
  · intro h
    rw [align_text]
    rw [if_pos (by omega)]
  · intro h
    have hnn : ¬((w : Int) - (get_display_width text : Int) ≤ 0) := by omega
    have htn : ((w : Int) - (get_display_width text : Int)).toNat
        = w - get_display_width text := by omega
    refine ⟨?_, ?_, ?_⟩ <;> rw [align_text, if_neg hnn] <;> simp [htn]
  · by_cases hp : (w : Int) - (get_display_width text : Int) ≤ 0
    · rw [align_text, if_pos hp]
    · rcases hmode with rfl | rfl | rfl <;> rw [align_text, if_neg hp]
      · simp
      · simp
      · simp
        omega

/-- C8: for every text, target width and mode among left/right/center, if
the text's display width is at least the target the padding function
returns the text unchanged (and it never returns anything shorter than the
text); otherwise it pads with ASCII spaces: all trailing for `left`, all
leading for `right`, and for `center` the left pad is half the deficit
rounded down with the remainder on the right. -/
theorem C8_align_padding (text : List Char) (w : Nat) (mode : String)
    (hmode : mode = "left" ∨ mode = "right" ∨ mode = "center") :
    (w ≤ get_display_width text → align_text text w mode = text)
    ∧ (get_display_width text < w →
        align_text text w "left"
            = text ++ List.replicate (w - get_display_width text) ' '
        ∧ align_text text w "right"
            = List.replicate (w - get_display_width text) ' ' ++ text
        ∧ align_text text w "center"
            = List.replicate ((w - get_display_width text) / 2) ' ' ++ text
              ++ List.replicate ((w - get_display_width text)
                  - (w - get_display_width text) / 2) ' ')
    ∧ text.length ≤ (align_text text w mode).length :=
  align_text_spec text w mode hmode

/-- C8 witness: a width-2 text padded to 5 in each mode. -/
theorem C8_align_padding_witness :
    align_text "ab".toList 5 "left" = "ab   ".toList
    ∧ align_text "ab".toList 5 "right" = "   ab".toList
    ∧ align_text "ab".toList 5 "center" = " ab  ".toList
    ∧ align_text "hello".toList 3 "left" = "hello".toList := by
  have h := (C8_align_padding "ab".toList 5 "left" (Or.inl rfl)).2.1 (by decide)
  have h4 := (C8_align_padding "hello".toList 3 "left" (Or.inl rfl)).1 (by decide)
  refine ⟨?_, ?_, ?_, h4⟩
  · rw [h.1]; decide
  · rw [h.2.1]; decide
  · rw [h.2.2]; decide

/-- C10: for every text, natural target width and mode among
left/right/center, `align_text` returns a string whose display width is
`max target (width text)` and which is the original text surrounded only
by ASCII spaces — never altered or truncated. -/
theorem C10_align_width_max (text : List Char) (w : Nat) (mode : String)
    (hmode : mode = "left" ∨ mode = "right" ∨ mode = "center") :
    get_display_width (align_text text w mode) = max w (get_display_width text)
    ∧ ∃ l r : Nat, align_text text w mode
        = List.replicate l ' ' ++ text ++ List.replicate r ' ' := by
  by_cases h : w ≤ get_display_width text
  · have heq := (align_text_spec text w mode hmode).1 h
    rw [heq]
    exact ⟨by rw [Nat.max_eq_right h], 0, 0, by simp⟩
  · push_neg at h
    have hpads := (align_text_spec text w mode hmode).2.1 h
    have hmax : max w (get_display_width text) = w := Nat.max_eq_left h.le
    rcases hmode with rfl | rfl | rfl
    · rw [hpads.1, hmax, get_display_width_append, get_display_width_replicate_space]
      exact ⟨by omega, 0, w - get_display_width text, by simp⟩
    · rw [hpads.2.1, hmax, get_display_width_append, get_display_width_replicate_space]
      exact ⟨by omega, w - get_display_width text, 0, by simp⟩
    · rw [hpads.2.2, hmax]
      rw [get_display_width_append, get_display_width_append,
        get_display_width_replicate_space, get_display_width_replicate_space]
      refine ⟨by omega, (w - get_display_width text) / 2,
        (w - get_display_width text) - (w - get_display_width text) / 2, rfl⟩

/-- C10 witness: a mixed-width name aligned to 12 has display width 12 and
is the text surrounded by spaces. -/
theorem C10_align_width_max_witness :
    get_display_width (align_text "平安A".toList 12 "left")
      = max 12 (get_display_width "平安A".toList)
    ∧ ∃ l r : Nat, align_text "平安A".toList 12 "left"
        = List.replicate l ' ' ++ "平安A".toList ++ List.replicate r ' ' :=
  C10_align_width_max "平安A".toList 12 "left" (Or.inl rfl)

/-- C9: for every quote, a non-negative change (including exactly zero) is
classified as up — up arrow and the ANSI red prefix `\x1b[31m` — and a
negative change as down — down arrow and the ANSI green prefix `\x1b[32m`;
the two fixed codes are distinct and swapped relative to the Western
convention (red = gain or flat, green = loss). -/
theorem C9_direction_classification (si : StockInfo) :
    (0 ≤ si.current - si.close →
        symbolFor (si.current - si.close) = "↑".toList
        ∧ colorFor (si.current - si.close) = "\x1b[31m".toList)
    ∧ (si.current - si.close < 0 →
        symbolFor (si.current - si.close) = "↓".toList
        ∧ colorFor (si.current - si.close) = "\x1b[32m".toList)
    ∧ "\x1b[31m".toList ≠ "\x1b[32m".toList := by
  refine ⟨fun h => ⟨?_, ?_⟩, fun h => ⟨?_, ?_⟩, by decide⟩
  · rw [symbolFor, if_pos h]
  · rw [colorFor, if_neg (not_lt.mpr h)]
  · rw [symbolFor, if_neg (not_le.mpr h)]
  · rw [colorFor, if_pos h]

/-- C9 witness: change `27.80 - 27.80 = 0` renders up/red, change
`27.79 - 27.80 < 0` renders down/green. -/
theorem C9_direction_classification_witness :
    (symbolFor ((⟨[], 27.80, 27.80, 0, 0, 0⟩ : StockInfo).current
        - (⟨[], 27.80, 27.80, 0, 0, 0⟩ : StockInfo).close) = "↑".toList
      ∧ colorFor ((⟨[], 27.80, 27.80, 0, 0, 0⟩ : StockInfo).current
        - (⟨[], 27.80, 27.80, 0, 0, 0⟩ : StockInfo).close) = "\x1b[31m".toList)
    ∧ (symbolFor ((⟨[], 27.79, 27.80, 0, 0, 0⟩ : StockInfo).current
        - (⟨[], 27.79, 27.80, 0, 0, 0⟩ : StockInfo).close) = "↓".toList
      ∧ colorFor ((⟨[], 27.79, 27.80, 0, 0, 0⟩ : StockInfo).current
        - (⟨[], 27.79, 27.80, 0, 0, 0⟩ : StockInfo).close) = "\x1b[32m".toList) :=
  ⟨(C9_direction_classification ⟨[], 27.80, 27.80, 0, 0, 0⟩).1 (by norm_num),
   (C9_direction_classification ⟨[], 27.79, 27.80, 0, 0, 0⟩).2.1 (by norm_num)⟩

theorem parseFields_eq_none (fields : List (List Char))
    (h : fields[1]? = none
      ∨ fields[3]?.bind parseFloatChars = none
      ∨ fields[4]?.bind parseFloatChars = none
      ∨ fields[5]?.bind parseFloatChars = none
      ∨ fields[33]?.bind parseFloatChars = none
      ∨ fields[34]?.bind parseFloatChars = none) :
    parseFields fields = none := by
  have hb : ∀ {α β : Type} (x : Option α) (f : α → Option β),
      (∀ a, f a = none) → x.bind f = none := by
    intro α β x f hf
    cases x <;> simp [hf]
  unfold parseFields
  rcases h with h | h | h | h | h | h
  · rw [h]; rfl
  · refine hb _ _ fun nm => ?_
    rw [h]; rfl
  · refine hb _ _ fun nm => hb _ _ fun cur => ?_
    rw [h]; rfl
  · refine hb _ _ fun nm => hb _ _ fun cur => hb _ _ fun close => ?_
    rw [h]; rfl
  · refine hb _ _ fun nm => hb _ _ fun cur => hb _ _ fun close =>
      hb _ _ fun opn => ?_
    rw [h]; rfl
  · refine hb _ _ fun nm => hb _ _ fun cur => hb _ _ fun close =>
      hb _ _ fun opn => hb _ _ fun high => ?_
    rw [h]; rfl

/-- C5: a response body without the `="` envelope marker, or whose field
list has fewer than 35 tilde-separated fields, or with non-numeric text at
any of positions 3, 4, 5, 33 or 34, parses to `None`; the parse function
is total, so no exception can leave the parse boundary. -/
theorem C5_malformed_parse_none (raw : List Char)
    (h : containsEnvMark raw = false
      ∨ (∃ fields, quoteFields raw = some fields ∧ fields.length < 35)
      ∨ (∃ fields p fp, quoteFields raw = some fields ∧ p ∈ [3, 4, 5, 33, 34]
          ∧ fields[p]? = some fp ∧ parseFloatChars fp = none)) :
    parseQuote raw = none := by
  rcases h with hmark | ⟨fields, hq, hlen⟩ | ⟨fields, p, fp, hq, hp, hfp, hpf⟩
  · have hsplit : splitEnv raw = [raw] := splitEnv_no_mark raw hmark
    rw [parseQuote, quoteFields, hsplit]
    rfl
  · have h34 : fields[34]? = none := List.getElem?_eq_none (by omega)
    rw [parseQuote, hq]
    exact parseFields_eq_none fields
      (Or.inr (Or.inr (Or.inr (Or.inr (Or.inr (by rw [h34]; rfl))))))
  · rw [parseQuote, hq]
    have hbind : fields[p]?.bind parseFloatChars = none := by rw [hfp]; exact hpf
    simp only [List.mem_cons, List.mem_singleton] at hp
    rcases hp with rfl | rfl | rfl | rfl | hp
    · exact parseFields_eq_none fields (Or.inr (Or.inl hbind))
    · exact parseFields_eq_none fields (Or.inr (Or.inr (Or.inl hbind)))
    · exact parseFields_eq_none fields (Or.inr (Or.inr (Or.inr (Or.inl hbind))))
    · exact parseFields_eq_none fields
        (Or.inr (Or.inr (Or.inr (Or.inr (Or.inl hbind)))))
    · rcases hp with rfl | hfalse
      · exact parseFields_eq_none fields
          (Or.inr (Or.inr (Or.inr (Or.inr (Or.inr hbind)))))
      · exact absurd hfalse (by simp)

/-- C5 witness: a body without the envelope marker parses to `None`. -/
theorem C5_malformed_parse_none_witness :
    containsEnvMark "pong".toList = false ∧ parseQuote "pong".toList = none :=
  ⟨by decide, C5_malformed_parse_none "pong".toList (Or.inl (by decide))⟩

/-- Assembles a feed payload `<pre>="<f0>~<f1>~...~<fN>";` from an
identifier part and a field list — the inverse direction of the envelope
located by `split('="')[1].rstrip('";')` (stock.py line 76). -/
def mkRawPayload (pre : List Char) (fields : List (List Char)) : List Char :=
  pre ++ '=' :: '"' :: (List.intercalate ['~'] fields ++ ['"', ';'])

/-- The 35-field body used to serialise a quote: field 1 carries the name,
fields 3/4/5/33/34 the decimal renderings of current, previous close, open,
high, low; every other field is the filler `0`. -/
def payloadFields (nm c3 c4 c5 c33 c34 : List Char) : List (List Char) :=
  [['0'], nm, ['0'], c3, c4, c5] ++ List.replicate 27 ['0'] ++ [c33, c34]

/-- Serialises a quote into a feed payload, defined when every monetary
field has a finite decimal rendering. -/
def mkQuotePayload (q : StockInfo) : Option (List Char) :=
  (ratToDecChars? q.current).bind fun c3 =>
  (ratToDecChars? q.close).bind fun c4 =>
  (ratToDecChars? q.openPrice).bind fun c5 =>
  (ratToDecChars? q.high).bind fun c33 =>
  (ratToDecChars? q.low).bind fun c34 =>
  some (mkRawPayload "v_code".toList (payloadFields q.name c3 c4 c5 c33 c34))

theorem containsEnvMark_false_of_not_mem : ∀ {s : List Char}, '=' ∉ s →
    containsEnvMark s = false
  | [], _ => rfl
  | [_], _ => rfl
  | c :: c' :: rest, h => by
    have hc : (c == '=') = false := by
      have hne : c ≠ '=' := fun hcc => h (by simp [hcc])
      simpa using hne
    rw [containsEnvMark, hc, Bool.false_and, Bool.false_or]
    exact containsEnvMark_false_of_not_mem (fun hm => h (List.mem_cons_of_mem _ hm))

/-- Positional parse correctness: a payload assembled from an
envelope-clean identifier and separator-clean fields with at least 35
entries parses to exactly the quote read off positions 1, 3, 4, 5, 33, 34. -/
theorem parse_mkRawPayload (pre : List Char) (fields : List (List Char))
    (nm f3 f4 f5 f33 f34 : List Char) (v3 v4 v5 v33 v34 : ℚ)
    (hpre : '=' ∉ pre)
    (hfields : ∀ f ∈ fields, '~' ∉ f ∧ '=' ∉ f)
    (htail : cleanTail (List.intercalate ['~'] fields) = true)
    (hlen : 35 ≤ fields.length)
    (h1 : fields[1]? = some nm)
    (h3 : fields[3]? = some f3) (hv3 : parseFloatChars f3 = some v3)
    (h4 : fields[4]? = some f4) (hv4 : parseFloatChars f4 = some v4)
    (h5 : fields[5]? = some f5) (hv5 : parseFloatChars f5 = some v5)
    (h33 : fields[33]? = some f33) (hv33 : parseFloatChars f33 = some v33)
    (h34 : fields[34]? = some f34) (hv34 : parseFloatChars f34 = some v34) :
    parseQuote (mkRawPayload pre fields) = some ⟨nm, v3, v4, v5, v33, v34⟩ := by
  have hne : fields ≠ [] := by
    intro hnil
    rw [hnil] at hlen
    simp at hlen
  have hmeq : '=' ∉ List.intercalate ['~'] fields := by
    intro hmem
    rcases mem_intercalate_tilde fields hmem with heq | ⟨l, hl, hml⟩
    · exact absurd heq (by decide)
    · exact (hfields l hl).2 hml
  have hmrest : '=' ∉ List.intercalate ['~'] fields ++ ['"', ';'] := by
    intro hmem
    rcases List.mem_append.mp hmem with hm | hm
    · exact hmeq hm
    · simp at hm
  have hcem := containsEnvMark_false_of_not_mem hmrest
  have hsplit : splitEnv (mkRawPayload pre fields)
      = pre :: [List.intercalate ['~'] fields ++ ['"', ';']] := by
    rw [mkRawPayload, splitEnv_append_mark pre _ hpre, splitEnv_no_mark _ hcem]
  have hquote : quoteFields (mkRawPayload pre fields) = some fields := by
    rw [quoteFields, hsplit]
    simp only [List.getElem?_cons_succ, List.getElem?_cons_zero, Option.map_some']
    rw [envStrip_append_close, envStrip_of_cleanTail htail,
      List.splitOn_intercalate fields '~' (fun l hl => (hfields l hl).1) hne]
  rw [parseQuote, hquote]
  show parseFields fields = some ⟨nm, v3, v4, v5, v33, v34⟩
  rw [parseFields, h1, h3, h4, h5, h33, h34]
  simp [hv3, hv4, hv5, hv33, hv34]

theorem decExp?_dvd {d k : Nat} (h : decExp? d = some k) : d ∣ 10 ^ k := by
  rw [decExp?] at h
  have hk := List.find?_some h
  exact Nat.dvd_of_mod_eq_zero (by simpa using hk)

theorem ratToDecChars?_eq {x : ℚ} {cs : List Char} (h : ratToDecChars? x = some cs) :
    ∃ k, x.den ∣ 10 ^ k ∧ cs = ratSignedChars x k := by
  rw [ratToDecChars?] at h
  cases hd : decExp? x.den with
  | none => rw [hd] at h; exact absurd h (by simp)
  | some k =>
    rw [hd] at h
    refine ⟨k, decExp?_dvd hd, ?_⟩
    simpa using h.symm

theorem ratSignedChars_chars (x : ℚ) (k : Nat) :
    ∀ c ∈ ratSignedChars x k, c.isDigit = true ∨ c = '.' ∨ c = '-' := by
  intro c hc
  rw [ratSignedChars] at hc
  have hbody : ∀ b, b ∈ (if k = 0 then natToChars (x.num.natAbs * (10 ^ k / x.den))
      else natToChars (x.num.natAbs * (10 ^ k / x.den) / 10 ^ k)
        ++ '.' :: zeroPad k (x.num.natAbs * (10 ^ k / x.den) % 10 ^ k)) →
      b.isDigit = true ∨ b = '.' ∨ b = '-' := by
    intro b hb
    by_cases hk : k = 0
    · rw [if_pos hk] at hb
      exact Or.inl (natToChars_isDigit _ b hb)
    · rw [if_neg hk] at hb
      rcases List.mem_append.mp hb with hb1 | hb2
      · exact Or.inl (natToChars_isDigit _ b hb1)
      · rcases List.mem_cons.mp hb2 with rfl | hb3
        · exact Or.inr (Or.inl rfl)
        · exact Or.inl (zeroPad_isDigit _ _ b hb3)
  by_cases hneg : x.num < 0
  · rw [if_pos hneg] at hc
    rcases List.mem_cons.mp hc with rfl | hc'
    · exact Or.inr (Or.inr rfl)
    · exact hbody c hc'
  · rw [if_neg hneg] at hc
    exact hbody c hc

theorem ratSignedChars_no_meta (x : ℚ) (k : Nat) :
    ∀ c ∈ ratSignedChars x k, c ≠ '~' ∧ c ≠ '=' ∧ c ≠ '"' ∧ c ≠ ';' := by
  intro c hc
  rcases ratSignedChars_chars x k c hc with hd | rfl | rfl
  · have h := isDigit_ne c hd
    exact ⟨h.2.1, h.2.2.1, h.2.2.2.1, h.2.2.2.2.1⟩
  · refine ⟨by decide, by decide, by decide, by decide⟩
  · refine ⟨by decide, by decide, by decide, by decide⟩

theorem ratSignedChars_ne_nil (x : ℚ) (k : Nat) : ratSignedChars x k ≠ [] := by
  rw [ratSignedChars]
  by_cases hneg : x.num < 0
  · rw [if_pos hneg]
    simp
  · rw [if_neg hneg]
    by_cases hk : k = 0
    · rw [if_pos hk]
      exact natToChars_ne_nil _
    · rw [if_neg hk]
      simp

theorem cleanTail_ratSignedChars (x : ℚ) (k : Nat) :
    cleanTail (ratSignedChars x k) = true := by
  rw [cleanTail]
  cases hl : (ratSignedChars x k).getLast? with
  | none => rfl
  | some c =>
    have hmem : c ∈ ratSignedChars x k :=
      List.mem_of_mem_getLast? (by rw [Option.mem_def]; exact hl)
    have h := ratSignedChars_no_meta x k c hmem
    have h1 : (c == '"') = false := by simpa using h.2.2.1
    have h2 : (c == ';') = false := by simpa using h.2.2.2
    show (!(c == '"' || c == ';')) = true
    rw [h1, h2]
    rfl

/-- C4: every payload `<identifier>="f0~f1~...~fN";` with at least 35
separator-clean fields and numeric text at positions 3, 4, 5, 33, 34
parses to the quote with name = field 1, current = float(field 3),
previous close = float(field 4), open = float(field 5),
high = float(field 33), low = float(field 34); consequently serialising a
quote into such a payload and re-parsing it returns the same quote. -/
theorem C4_parse_positional_roundtrip :
    (∀ (pre : List Char) (fields : List (List Char))
        (nm f3 f4 f5 f33 f34 : List Char) (v3 v4 v5 v33 v34 : ℚ),
      '=' ∉ pre →
      (∀ f ∈ fields, '~' ∉ f ∧ '=' ∉ f) →
      cleanTail (List.intercalate ['~'] fields) = true →
      35 ≤ fields.length →
      fields[1]? = some nm →
      fields[3]? = some f3 → parseFloatChars f3 = some v3 →
      fields[4]? = some f4 → parseFloatChars f4 = some v4 →
      fields[5]? = some f5 → parseFloatChars f5 = some v5 →
      fields[33]? = some f33 → parseFloatChars f33 = some v33 →
      fields[34]? = some f34 → parseFloatChars f34 = some v34 →
      parseQuote (mkRawPayload pre fields)
        = some ⟨nm, v3, v4, v5, v33, v34⟩)
    ∧ ∀ (q : StockInfo) (pl : List Char),
        '~' ∉ q.name → '=' ∉ q.name →
        mkQuotePayload q = some pl →
        parseQuote pl = some q := by
  constructor
  · intro pre fields nm f3 f4 f5 f33 f34 v3 v4 v5 v33 v34 hpre hf ht hlen
      h1 h3 hv3 h4 hv4 h5 hv5 h33 hv33 h34 hv34
    exact parse_mkRawPayload pre fields nm f3 f4 f5 f33 f34 v3 v4 v5 v33 v34
      hpre hf ht hlen h1 h3 hv3 h4 hv4 h5 hv5 h33 hv33 h34 hv34
  · intro q pl hn1 hn2 hmk
    obtain ⟨nm, cur, cls, opn, hi, lo⟩ := q
    rw [mkQuotePayload] at hmk
    rw [Option.bind_eq_some] at hmk
    obtain ⟨c3, hc3, hmk⟩ := hmk
    rw [Option.bind_eq_some] at hmk
    obtain ⟨c4, hc4, hmk⟩ := hmk
    rw [Option.bind_eq_some] at hmk
    obtain ⟨c5, hc5, hmk⟩ := hmk
    rw [Option.bind_eq_some] at hmk
    obtain ⟨c33, hc33, hmk⟩ := hmk
    rw [Option.bind_eq_some] at hmk
    obtain ⟨c34, hc34, hmk⟩ := hmk
    have hpl : pl = mkRawPayload "v_code".toList (payloadFields nm c3 c4 c5 c33 c34) := by
      simpa using hmk.symm
    subst hpl
    obtain ⟨k3, hdvd3, rfl⟩ := ratToDecChars?_eq hc3
    obtain ⟨k4, hdvd4, rfl⟩ := ratToDecChars?_eq hc4
    obtain ⟨k5, hdvd5, rfl⟩ := ratToDecChars?_eq hc5
    obtain ⟨k33, hdvd33, rfl⟩ := ratToDecChars?_eq hc33
    obtain ⟨k34, hdvd34, rfl⟩ := ratToDecChars?_eq hc34
    have hrs : ∀ (x : ℚ) (k : Nat),
        '~' ∉ ratSignedChars x k ∧ '=' ∉ ratSignedChars x k :=
      fun x k => ⟨fun hm => (ratSignedChars_no_meta x k _ hm).1 rfl,
                  fun hm => (ratSignedChars_no_meta x k _ hm).2.1 rfl⟩
    have hfields : ∀ f ∈ payloadFields nm (ratSignedChars cur k3)
        (ratSignedChars cls k4) (ratSignedChars opn k5)
        (ratSignedChars hi k33) (ratSignedChars lo k34),
        '~' ∉ f ∧ '=' ∉ f := by
      intro f hf
      rw [payloadFields] at hf
      rcases List.mem_append.mp hf with hf' | hf'
      · rcases List.mem_append.mp hf' with hf'' | hf''
        · simp only [List.mem_cons, List.not_mem_nil, or_false] at hf''
          rcases hf'' with rfl | rfl | rfl | rfl | rfl | rfl
          · exact ⟨by decide, by decide⟩
          · exact ⟨hn1, hn2⟩
          · exact ⟨by decide, by decide⟩
          · exact hrs cur k3
          · exact hrs cls k4
          · exact hrs opn k5
        · have := List.eq_of_mem_replicate hf''
          subst this
          exact ⟨by decide, by decide⟩
      · simp only [List.mem_cons, List.not_mem_nil, or_false] at hf'
        rcases hf' with rfl | rfl
        · exact hrs hi k33
        · exact hrs lo k34
    have htail : cleanTail (List.intercalate ['~'] (payloadFields nm
        (ratSignedChars cur k3) (ratSignedChars cls k4) (ratSignedChars opn k5)
        (ratSignedChars hi k33) (ratSignedChars lo k34))) = true := by
      have hshape : payloadFields nm (ratSignedChars cur k3)
          (ratSignedChars cls k4) (ratSignedChars opn k5)
          (ratSignedChars hi k33) (ratSignedChars lo k34)
          = ([['0'], nm, ['0'], ratSignedChars cur k3, ratSignedChars cls k4,
              ratSignedChars opn k5] ++ List.replicate 27 ['0']
              ++ [ratSignedChars hi k33]) ++ [ratSignedChars lo k34] := by
        simp [payloadFields]
      rw [hshape]
      obtain ⟨pre', hpre'⟩ := exists_concat_intercalate _ (ratSignedChars lo k34)
      rw [hpre', cleanTail_concat (ratSignedChars_ne_nil lo k34)]
      exact cleanTail_ratSignedChars lo k34
    exact parse_mkRawPayload "v_code".toList _ nm _ _ _ _ _ cur cls opn hi lo
      (by decide) hfields htail (by simp [payloadFields]) rfl
      rfl (ratSignedChars_parse cur k3 hdvd3)
      rfl (ratSignedChars_parse cls k4 hdvd4)
      rfl (ratSignedChars_parse opn k5 hdvd5)
      rfl (ratSignedChars_parse hi k33 hdvd33)
      rfl (ratSignedChars_parse lo k34 hdvd34)

/-- A 35-field sample payload body and the quote it denotes. -/
def demoFields : List (List Char) :=
  ["1".toList, "中国平安".toList, "601318".toList, "27.85".toList,
   "27.80".toList, "27.82".toList] ++ List.replicate 27 "0".toList
    ++ ["28.10".toList, "27.50".toList]

/-- The quote denoted by `demoFields`. -/
def demoQuote : StockInfo :=
  ⟨"中国平安".toList, 27.85, 27.80, 27.82, 28.10, 27.50⟩

unseal Rat.add Rat.sub Rat.mul Rat.inv Rat.ofScientific in
/-- C4 witness: the sample payload parses to the sample quote, and
serialising the sample quote and re-parsing returns it unchanged. -/
theorem C4_parse_positional_roundtrip_witness :
    parseQuote (mkRawPayload "v_sh601318".toList demoFields) = some demoQuote
    ∧ (mkQuotePayload demoQuote).bind parseQuote = some demoQuote := by
  constructor
  · exact C4_parse_positional_roundtrip.1 "v_sh601318".toList demoFields
      "中国平安".toList "27.85".toList "27.80".toList "27.82".toList
      "28.10".toList "27.50".toList 27.85 27.80 27.82 28.10 27.50
      (by decide) (by decide) (by decide) (by decide)
      rfl rfl (by decide) rfl (by decide) rfl (by decide) rfl (by decide)
      rfl (by decide)
  · cases hmk : mkQuotePayload demoQuote with
    | none => exact absurd hmk (by decide)
    | some pl =>
      exact C4_parse_positional_roundtrip.2 demoQuote pl (by decide) (by decide) hmk

/-- The change-percent computed at stock.py line 160:
`(change / close) * 100`. -/
def changePercentOf (si : StockInfo) : ℚ := (si.current - si.close) / si.close * 100

/-- The sort key of stock.py line 211 on a valid quote:
`(current - close) / close`. -/
def sortKeyV (si : StockInfo) : ℚ := (si.current - si.close) / si.close

theorem insertDesc_mem {α : Type} (key : α → ℚ) (a x : α) :
    ∀ l : List α, x ∈ insertDesc key a l ↔ x = a ∨ x ∈ l
  | [] => by simp [insertDesc]
  | b :: t => by
    rw [insertDesc]
    by_cases h : key b ≤ key a
    · rw [if_pos h]
      simp
    · rw [if_neg h]
      rw [List.mem_cons, insertDesc_mem key a x t, List.mem_cons]
      tauto

theorem insertDesc_perm {α : Type} (key : α → ℚ) (a : α) :
    ∀ l : List α, (insertDesc key a l).Perm (a :: l)
  | [] => List.Perm.refl _
  | b :: t => by
    rw [insertDesc]
    by_cases h : key b ≤ key a
    · rw [if_pos h]
    · rw [if_neg h]
      exact ((insertDesc_perm key a t).cons b).trans (List.Perm.swap a b t)

theorem stableSortDesc_perm {α : Type} (key : α → ℚ) :
    ∀ l : List α, (stableSortDesc key l).Perm l
  | [] => List.Perm.refl _
  | a :: t => by
    rw [stableSortDesc]
    exact (insertDesc_perm key a _).trans ((stableSortDesc_perm key t).cons a)

theorem insertDesc_pairwise {α : Type} (key : α → ℚ) (a : α) :
    ∀ l : List α, l.Pairwise (fun x y => key y ≤ key x) →
      (insertDesc key a l).Pairwise (fun x y => key y ≤ key x)
  | [], _ => by simp [insertDesc]
  | b :: t, hl => by
    rw [insertDesc]
    by_cases h : key b ≤ key a
    · rw [if_pos h]
      refine List.Pairwise.cons ?_ hl
      intro c hc
      rcases List.mem_cons.mp hc with rfl | hct
      · exact h
      · exact le_trans (List.rel_of_pairwise_cons hl hct) h
    · rw [if_neg h]
      have hab : key a ≤ key b := (not_le.mp h).le
      refine List.Pairwise.cons ?_ (insertDesc_pairwise key a t hl.of_cons)
      intro c hc
      rcases (insertDesc_mem key a c t).mp hc with rfl | hct
      · exact hab
      · exact List.rel_of_pairwise_cons hl hct

theorem stableSortDesc_pairwise {α : Type} (key : α → ℚ) :
    ∀ l : List α, (stableSortDesc key l).Pairwise (fun x y => key y ≤ key x)
  | [] => List.Pairwise.nil
  | a :: t => by
    rw [stableSortDesc]
    exact insertDesc_pairwise key a _ (stableSortDesc_pairwise key t)

theorem insertDesc_filter_key {α : Type} (key : α → ℚ) (q : ℚ) (a : α) :
    ∀ l : List α,
      (insertDesc key a l).filter (fun x => key x == q)
        = if key a = q then a :: l.filter (fun x => key x == q)
          else l.filter (fun x => key x == q)
  | [] => by
    rw [insertDesc]
    by_cases h : key a = q
    · rw [if_pos h]
      simp [List.filter_cons, h]
    · rw [if_neg h]
      simp [List.filter_cons, h]
  | b :: t => by
    rw [insertDesc]
    by_cases hba : key b ≤ key a
    · rw [if_pos hba]
      by_cases ha : key a = q
      · rw [if_pos ha]
        simp [List.filter_cons, ha]
      · rw [if_neg ha]
        simp [List.filter_cons, ha]
    · rw [if_neg hba]
      have hlt : key a < key b := not_le.mp hba
      rw [List.filter_cons, List.filter_cons, insertDesc_filter_key key q a t]
      by_cases hb : key b = q
      · have ha : ¬(key a = q) := by
          intro ha'
          rw [ha', ← hb] at hlt
          exact lt_irrefl _ hlt
        simp [hb, ha]
      · simp [hb]

theorem stableSortDesc_filter_key {α : Type} (key : α → ℚ) (q : ℚ) :
    ∀ l : List α,
      (stableSortDesc key l).filter (fun x => key x == q)
        = l.filter (fun x => key x == q)
  | [] => rfl
  | a :: t => by
    rw [stableSortDesc, insertDesc_filter_key key q a _,
      stableSortDesc_filter_key key q t, List.filter_cons]
    by_cases ha : key a = q
    · rw [if_pos ha]
      simp [ha]
    · rw [if_neg ha]
      simp [ha]

theorem insertDesc_map_some (key : Option StockInfo → ℚ) (a : StockInfo) :
    ∀ l : List StockInfo,
      insertDesc key (some a) (l.map some)
        = (insertDesc (fun si => key (some si)) a l).map some
  | [] => rfl
  | b :: t => by
    rw [List.map_cons, insertDesc, insertDesc]
    by_cases h : key (some b) ≤ key (some a)
    · rw [if_pos h, if_pos h]
      rfl
    · rw [if_neg h, if_neg h, List.map_cons, insertDesc_map_some key a t]

theorem stableSortDesc_map_some (key : Option StockInfo → ℚ) :
    ∀ l : List StockInfo,
      stableSortDesc key (l.map some)
        = (stableSortDesc (fun si => key (some si)) l).map some
  | [] => rfl
  | a :: t => by
    rw [List.map_cons, stableSortDesc, stableSortDesc,
      stableSortDesc_map_some key t, insertDesc_map_some]

theorem insertDesc_congr {α : Type} (k1 k2 : α → ℚ) (a : α)
    (ha : k1 a = k2 a) :
    ∀ l : List α, (∀ b ∈ l, k1 b = k2 b) →
      insertDesc k1 a l = insertDesc k2 a l
  | [], _ => rfl
  | b :: t, hl => by
    have hb : k1 b = k2 b := hl b (List.mem_cons_self b t)
    have ht : ∀ c ∈ t, k1 c = k2 c := fun c hc => hl c (List.mem_cons_of_mem _ hc)
    rw [insertDesc, insertDesc, hb, ha]
    by_cases h : k2 b ≤ k2 a
    · rw [if_pos h, if_pos h]
    · rw [if_neg h, if_neg h, insertDesc_congr k1 k2 a ha t ht]

theorem stableSortDesc_congr {α : Type} (k1 k2 : α → ℚ) :
    ∀ l : List α, (∀ b ∈ l, k1 b = k2 b) →
      stableSortDesc k1 l = stableSortDesc k2 l
  | [], _ => rfl
  | a :: t, hl => by
    have ha : k1 a = k2 a := hl a (List.mem_cons_self a t)
    have ht : ∀ c ∈ t, k1 c = k2 c := fun c hc => hl c (List.mem_cons_of_mem _ hc)
    rw [stableSortDesc, stableSortDesc, stableSortDesc_congr k1 k2 t ht]
    exact insertDesc_congr k1 k2 a ha _
      (fun b hb => ht b ((stableSortDesc_perm k2 t).mem_iff.mp hb))

theorem mapM_sortKeyE_ok :
    ∀ l : List StockInfo, (∀ si ∈ l, si.close ≠ 0) →
      ∃ ks, (l.map some).mapM sortKeyE = Except.ok ks
  | [], _ => ⟨[], rfl⟩
  | a :: t, h => by
    obtain ⟨ks, hks⟩ := mapM_sortKeyE_ok t fun si hsi => h si (List.mem_cons_of_mem _ hsi)
    have ha : sortKeyE (some a) = Except.ok ((a.current - a.close) / a.close) := by
      rw [sortKeyE, if_neg (h a (List.mem_cons_self a t))]
    refine ⟨(a.current - a.close) / a.close :: ks, ?_⟩
    rw [List.map_cons, List.mapM_cons, ha, hks]
    rfl

/-- Example quotes with change-percents +5, −2, +5, 0 (names make the two
+5 entries distinguishable). -/
def exA : StockInfo := ⟨"A".toList, 105, 100, 0, 0, 0⟩

/-- Change-percent −2. -/
def exB : StockInfo := ⟨"B".toList, 98, 100, 0, 0, 0⟩

/-- Change-percent +5, distinct from `exA`. -/
def exC : StockInfo := ⟨"C".toList, 105, 100, 0, 0, 0⟩

/-- Change-percent 0. -/
def exD : StockInfo := ⟨"D".toList, 100, 100, 0, 0, 0⟩

unseal Rat.add Rat.sub Rat.mul Rat.inv Rat.ofScientific in
/-- C6: on every list of validly parsed outcomes (non-zero previous close)
the sort step succeeds and orders them by descending change-percent,
stably: it yields a permutation that is weakly descending on change-percent
and preserves the relative order of equal change-percent entries; in
particular the inputs with change-percents [+5, −2, +5, 0] sort to the two
+5 entries first in input order, then 0, then −2. -/
theorem C6_sort_desc_stable :
    (∀ l : List StockInfo, (∀ si ∈ l, si.close ≠ 0) →
      ∃ r : List StockInfo,
        sortOutcomes (l.map some) = Except.ok (r.map some)
        ∧ r.Perm l
        ∧ r.Pairwise (fun a b => changePercentOf b ≤ changePercentOf a)
        ∧ ∀ q : ℚ, r.filter (fun si => changePercentOf si == q)
            = l.filter (fun si => changePercentOf si == q))
    ∧ sortOutcomes ([exA, exB, exC, exD].map some)
        = Except.ok ([exA, exC, exD, exB].map some) := by
  constructor
  · intro l h
    refine ⟨stableSortDesc sortKeyV l, ?_, ?_, ?_, ?_⟩
    · obtain ⟨ks, hks⟩ := mapM_sortKeyE_ok l h
      have hstep : sortOutcomes (l.map some)
          = Except.ok (stableSortDesc pyKeyD (l.map some)) := by
        rw [sortOutcomes, hks]
      rw [hstep, stableSortDesc_map_some]
      congr 1
      congr 1
      refine stableSortDesc_congr _ _ l fun b hb => ?_
      simp only [pyKeyD, sortKeyV]
      rw [if_neg (h b hb)]
    · exact stableSortDesc_perm sortKeyV l
    · refine (stableSortDesc_pairwise sortKeyV l).imp ?_
      intro a b hab
      have : sortKeyV b * 100 ≤ sortKeyV a * 100 :=
        mul_le_mul_of_nonneg_right hab (by norm_num)
      simpa [changePercentOf, sortKeyV, div_mul_eq_mul_div] using this
    · intro q
      have hcp : ∀ si : StockInfo, changePercentOf si = sortKeyV si * 100 := by
        intro si
        rw [changePercentOf, sortKeyV]
      have hpt : ∀ si : StockInfo,
          (changePercentOf si == q) = (sortKeyV si == q / 100) := by
        intro si
        rw [Bool.eq_iff_iff, beq_iff_eq, beq_iff_eq, hcp si]
        constructor
        · intro hq
          rw [← hq]
          ring
        · intro hk
          rw [hk]
          ring
      rw [List.filter_congr (fun si _ => hpt si),
        List.filter_congr (fun si _ => hpt si)]
      exact stableSortDesc_filter_key sortKeyV (q / 100) l
  · rfl

unseal Rat.add Rat.sub Rat.mul Rat.inv Rat.ofScientific in
/-- C6 witness: the general sort contract instantiated on the concrete
[+5, −2, +5, 0] change-percent inputs. -/
theorem C6_sort_desc_stable_witness :
    ∃ r : List StockInfo,
      sortOutcomes ([exA, exB, exC, exD].map some) = Except.ok (r.map some)
      ∧ r.Perm [exA, exB, exC, exD]
      ∧ r.Pairwise (fun a b => changePercentOf b ≤ changePercentOf a)
      ∧ ∀ q : ℚ, r.filter (fun si => changePercentOf si == q)
          = [exA, exB, exC, exD].filter (fun si => changePercentOf si == q) :=
  C6_sort_desc_stable.1 [exA, exB, exC, exD] (by decide)

theorem mapM_sortKeyE_error_of_mem {x : Option StockInfo} {e0 : PyError}
    (hx : sortKeyE x = Except.error e0) :
    ∀ l : List (Option StockInfo), x ∈ l →
      ∃ e, l.mapM sortKeyE = Except.error e
  | [], hmem => absurd hmem (List.not_mem_nil x)
  | a :: t, hmem => by
    rw [List.mapM_cons]
    rcases List.mem_cons.mp hmem with rfl | hmt
    · exact ⟨e0, by rw [hx]; rfl⟩
    · cases ha : sortKeyE a with
      | error e' => exact ⟨e', rfl⟩
      | ok b =>
        obtain ⟨e, he⟩ := mapM_sortKeyE_error_of_mem hx t hmt
        refine ⟨e, ?_⟩
        rw [he]
        rfl

/-- C2 (amended): an outcome list containing a parsed quote with previous
close = 0 makes the key computation of `sorted(...)` raise — the division
IS performed — so the sort step fails with an exception
(`ZeroDivisionError`, or `TypeError` if an earlier outcome is `None`) and
the refresh cycle aborts; the quote is never treated as `Unavailable`. -/
theorem C2_zero_close_raises (l : List (Option StockInfo)) (si : StockInfo)
    (hmem : some si ∈ l) (hz : si.close = 0) :
    ∃ e, sortOutcomes l = Except.error e
      ∧ ∀ (fetch : List Char → Option StockInfo) (codes : List (List Char)),
          codes.map fetch = l → runCycle fetch codes = Except.error e := by
  have hsk : sortKeyE (some si) = Except.error PyError.zeroDivision := by
    rw [sortKeyE]
    exact if_pos hz
  obtain ⟨e, he⟩ := mapM_sortKeyE_error_of_mem hsk l hmem
  have hso : sortOutcomes l = Except.error e := by
    rw [sortOutcomes, he]
  refine ⟨e, hso, ?_⟩
  intro fetch codes hc
  rw [runCycle]
  rw [hc, hso]

/-- A parsed quote whose previous close is zero. -/
def qzC2 : StockInfo := ⟨"零收盘".toList, 10, 0, 10, 10, 10⟩

/-- The 35-field payload that parses to `qzC2`. -/
def zeroCloseFields : List (List Char) :=
  ["0".toList, "零收盘".toList, "600000".toList, "10".toList, "0".toList,
   "10".toList] ++ List.replicate 27 "0".toList ++ ["10".toList, "10".toList]

unseal Rat.add Rat.sub Rat.mul Rat.inv Rat.ofScientific in
/-- C2 counterexample: a zero-previous-close payload parses to a quote
(not to `Unavailable`), and the metrics/sort step then performs the
division and raises `ZeroDivisionError`, aborting the cycle — refuting
the claimed division guard. -/
theorem C2_zero_close_counterexample :
    parseQuote (mkRawPayload "v_sh600000".toList zeroCloseFields) = some qzC2
    ∧ qzC2.close = 0
    ∧ sortOutcomes [some qzC2] = Except.error PyError.zeroDivision
    ∧ runCycle (fun _ => some qzC2) ["sh600000".toList]
        = Except.error PyError.zeroDivision := by
  refine ⟨by decide, by decide, rfl, rfl⟩

unseal Rat.add Rat.sub Rat.mul Rat.inv Rat.ofScientific in
/-- C2 witness: the amended claim instantiated at a one-element outcome
list holding the zero-close quote. -/
theorem C2_zero_close_raises_witness :
    ∃ e, sortOutcomes [some qzC2] = Except.error e
      ∧ ∀ (fetch : List Char → Option StockInfo) (codes : List (List Char)),
          codes.map fetch = [some qzC2] → runCycle fetch codes = Except.error e :=
  C2_zero_close_raises [some qzC2] qzC2 (List.mem_singleton.mpr rfl) (by decide)

/-- A valid quote for the C1 scenario. -/
def q1C1 : StockInfo := ⟨"浦发银行".toList, 10.55, 10.40, 10.45, 10.60, 10.30⟩

/-- The C1 fetcher: first code succeeds, every other code fails. -/
def fetchC1 : List Char → Option StockInfo :=
  fun c => if c = "sh600000".toList then some q1C1 else none

unseal Rat.add Rat.sub Rat.mul Rat.inv Rat.ofScientific in
/-- C1 (code-bug evidence): with two configured codes whose second fetch
yields `Unavailable`, the fetch loop does complete — both outcomes are
collected — but the sort key then subscripts `None` and the uncaught
`TypeError` aborts the cycle: no placeholder row is rendered and the
exception escapes the per-code boundary, contrary to the claim. -/
theorem C1_unavailable_aborts_cycle :
    ["sh600000".toList, "sz000001".toList].map fetchC1 = [some q1C1, none]
    ∧ runCycle fetchC1 ["sh600000".toList, "sz000001".toList]
        = Except.error PyError.typeErrorNone := by
  refine ⟨by decide, rfl⟩

/-- The quote of the C3 end-to-end scenario: current 27.85, close 27.80. -/
def qC3 : StockInfo := ⟨"中国平安".toList, 27.85, 27.80, 27.82, 28.10, 27.50⟩

/-- The C3 fetcher: `sh601318` yields the valid quote, `sz000001` yields
`Unavailable`. -/
def fetchC3 : List Char → Option StockInfo :=
  fun c => if c = "sh601318".toList then some qC3 else none

unseal Rat.add Rat.sub Rat.mul Rat.inv Rat.ofScientific in
/-- C3 (code-bug evidence): in the two-code scenario of the claim —
`sh601318` parsed with current 27.85 and close 27.80, `sz000001`
`Unavailable` — the cycle renders no data row at all: the sort key
subscripts the `None` outcome and the uncaught `TypeError` aborts the
cycle, so the claimed two-row render never happens. -/
theorem C3_scenario_crashes :
    ["sh601318".toList, "sz000001".toList].map fetchC3 = [some qC3, none]
    ∧ runCycle fetchC3 ["sh601318".toList, "sz000001".toList]
        = Except.error PyError.typeErrorNone := by
  refine ⟨by decide, rfl⟩
